import Mathlib

/-!
Verification of the audio preprocessing core of TranscribeAPP.

The definitions below are a shallow embedding of
`src/services/audio/AudioProcessor.ts` (WAV encoding and segmentation) and of
the orchestration logic in `src/App.tsx` (path decision, sequential
transcription, transcript merge).  Samples are modelled as rationals,
JavaScript numbers used as array indices or byte values as `Int`/`Nat`, and
byte buffers as `List ℕ` (each entry one byte).
-/

namespace TranscribeApp

/-- Bytes written by `DataView.setUint16(off, v, true)`: little-endian, value
taken modulo 2^16. -/
def u16le (v : ℕ) : List ℕ := [v % 256, v / 256 % 256]

/-- Bytes written by `DataView.setUint32(off, v, true)`: little-endian, value
taken modulo 2^32. -/
def u32le (v : ℕ) : List ℕ :=
  [v % 256, v / 256 % 256, v / 65536 % 256, v / 16777216 % 256]

/-- Bytes written by `DataView.setInt16(off, v, true)` for an integer value:
the value modulo 2^16, little-endian. -/
def int16le (v : ℤ) : List ℕ := u16le (v % 65536).toNat

/-- ASCII codes of "RIFF", as written by `writeString(0, "RIFF")`. -/
def riffB : List ℕ := [82, 73, 70, 70]

/-- ASCII codes of "WAVE". -/
def waveB : List ℕ := [87, 65, 86, 69]

/-- ASCII codes of "fmt " (with trailing space). -/
def fmtB : List ℕ := [102, 109, 116, 32]

/-- ASCII codes of "data". -/
def dataB : List ℕ := [100, 97, 116, 97]

/-- Per-sample quantization in `encodeWav`:
`Math.max(-1, Math.min(1, samples[i]))` followed by
`sample < 0 ? sample * 0x8000 : sample * 0x7fff` and the truncation toward
zero performed by `DataView.setInt16` on a non-integral number. -/
def quantizeSample (s : ℚ) : ℤ :=
  let clamped := max (-1) (min 1 s)
  let scaled := if clamped < 0 then clamped * 32768 else clamped * 32767
  if scaled < 0 then ⌈scaled⌉ else ⌊scaled⌋

/-- The PCM16 payload of `encodeWav`: two bytes per sample, in order. -/
def pcmData : List ℚ → List ℕ
  | [] => []
  | s :: rest => int16le (quantizeSample s) ++ pcmData rest

/-- The 44-byte RIFF/WAVE header written by `encodeWav` (offsets 0..43,
all fields little-endian). -/
def wavHeader (numSamples sampleRate : ℕ) : List ℕ :=
  let dataSize := numSamples * 2
  riffB ++ u32le (36 + dataSize) ++ waveB ++ fmtB ++
  u32le 16 ++ u16le 1 ++ u16le 1 ++ u32le sampleRate ++
  u32le (sampleRate * 2) ++ u16le 2 ++ u16le 16 ++ dataB ++
  u32le dataSize

/-- `AudioProcessor.encodeWav`: 44-byte header followed by the PCM16 data. -/
def encodeWav (samples : List ℚ) (sampleRate : ℕ) : List ℕ :=
  wavHeader samples.length sampleRate ++ pcmData samples

/-- Read one byte of a buffer (0 past the end, which never happens in the
offsets we consider). -/
def byteAt (bytes : List ℕ) (i : ℕ) : ℕ := bytes.getD i 0

/-- Little-endian unsigned 16-bit read. -/
def readU16LE (bytes : List ℕ) (off : ℕ) : ℕ :=
  byteAt bytes off + 256 * byteAt bytes (off + 1)

/-- Little-endian unsigned 32-bit read. -/
def readU32LE (bytes : List ℕ) (off : ℕ) : ℕ :=
  byteAt bytes off + 256 * byteAt bytes (off + 1) +
  65536 * byteAt bytes (off + 2) + 16777216 * byteAt bytes (off + 3)

/-- Little-endian signed 16-bit read (`DataView.getInt16(off, true)`). -/
def readI16LE (bytes : List ℕ) (off : ℕ) : ℤ :=
  let v := readU16LE bytes off
  if v < 32768 then (v : ℤ) else (v : ℤ) - 65536

theorem pcmData_length (samples : List ℚ) :
    (pcmData samples).length = 2 * samples.length := by
  induction samples with
  | nil => rfl
  | cons s rest ih =>
    simp [pcmData, int16le, u16le, ih]
    ring

theorem wavHeader_length (n r : ℕ) : (wavHeader n r).length = 44 := by
  simp [wavHeader, riffB, waveB, fmtB, dataB, u32le, u16le]

theorem encodeWav_length (samples : List ℚ) (rate : ℕ) :
    (encodeWav samples rate).length = 44 + 2 * samples.length := by
  simp [encodeWav, wavHeader_length, pcmData_length]

/-- C3: the encoder's output byte length equals `44 + 2 * len(samples)` for
every sample array and every sample rate. -/
theorem encoder_size_law (samples : List ℚ) (rate : ℕ) :
    (encodeWav samples rate).length = 44 + 2 * samples.length :=
  encodeWav_length samples rate

/-- C4: header invariants of the encoder for every sample array and every
representable rate: "RIFF" at 0..3, "WAVE" at 8..11, chunk size `36 + dataSize`
at offset 4, mono (NumChannels = 1) at offset 22, the sample rate at offset 24,
16 bits per sample at offset 34 and `dataSize = 2 * len(samples)` at 40. -/
theorem wav_header_invariants (samples : List ℚ) (rate : ℕ)
    (hr : rate < 4294967296) (hn : 36 + 2 * samples.length < 4294967296) :
    (encodeWav samples rate).take 4 = "RIFF".toList.map Char.toNat ∧
    ((encodeWav samples rate).drop 8).take 4 = "WAVE".toList.map Char.toNat ∧
    readU32LE (encodeWav samples rate) 4 = 36 + 2 * samples.length ∧
    readU16LE (encodeWav samples rate) 22 = 1 ∧
    readU32LE (encodeWav samples rate) 24 = rate ∧
    readU16LE (encodeWav samples rate) 34 = 16 ∧
    readU32LE (encodeWav samples rate) 40 = 2 * samples.length := by
  refine ⟨?_, ?_, ?_, ?_, ?_, ?_, ?_⟩ <;>
    simp [readU32LE, readU16LE, byteAt, encodeWav, wavHeader, riffB, waveB,
      fmtB, dataB, u32le, u16le] <;> omega

/-- Witness for C4 at the spec's round-trip input `[0, 0.5, -0.5, 1.0]` and
rate 16000. -/
theorem wav_header_invariants_witness :
    (encodeWav [0, 1/2, -1/2, 1] 16000).take 4 = "RIFF".toList.map Char.toNat ∧
    ((encodeWav [0, 1/2, -1/2, 1] 16000).drop 8).take 4 =
      "WAVE".toList.map Char.toNat ∧
    readU32LE (encodeWav [0, 1/2, -1/2, 1] 16000) 4 =
      36 + 2 * ([0, 1/2, -1/2, 1] : List ℚ).length ∧
    readU16LE (encodeWav [0, 1/2, -1/2, 1] 16000) 22 = 1 ∧
    readU32LE (encodeWav [0, 1/2, -1/2, 1] 16000) 24 = 16000 ∧
    readU16LE (encodeWav [0, 1/2, -1/2, 1] 16000) 34 = 16 ∧
    readU32LE (encodeWav [0, 1/2, -1/2, 1] 16000) 40 =
      2 * ([0, 1/2, -1/2, 1] : List ℚ).length :=
  wav_header_invariants [0, 1/2, -1/2, 1] 16000 (by norm_num) (by decide)

theorem pcmData_append (l1 l2 : List ℚ) :
    pcmData (l1 ++ l2) = pcmData l1 ++ pcmData l2 := by
  induction l1 with
  | nil => rfl
  | cons s rest ih => simp [pcmData, ih]

theorem quantizeSample_bounds (s : ℚ) :
    -32768 ≤ quantizeSample s ∧ quantizeSample s ≤ 32767 := by
  unfold quantizeSample
  set c := max (-1) (min 1 s) with hc
  have h1 : (-1 : ℚ) ≤ c := le_max_left _ _
  have h2 : c ≤ 1 := by
    apply max_le
    · norm_num
    · exact min_le_left _ _
  by_cases hneg : c < 0
  · simp only [if_pos hneg]
    have hs1 : c * 32768 < 0 := by nlinarith
    have hs2 : (-32768 : ℚ) ≤ c * 32768 := by nlinarith
    simp only [if_pos hs1]
    have hlow : (-32768 : ℤ) ≤ ⌈c * 32768⌉ := by
      exact_mod_cast hs2.trans (Int.le_ceil _)
    have hup : ⌈c * 32768⌉ ≤ (0 : ℤ) := Int.ceil_le.mpr (by push_cast; linarith)
    omega
  · simp only [if_neg hneg]
    push_neg at hneg
    have hs1 : ¬ (c * 32767 < 0) := by nlinarith
    simp only [if_neg hs1]
    constructor
    · have : (0 : ℤ) ≤ ⌊c * 32767⌋ := Int.le_floor.mpr (by push_cast; nlinarith)
      omega
    · have : ⌊c * 32767⌋ ≤ ⌊(32767 : ℚ)⌋ := Int.floor_le_floor (by nlinarith)
      simpa using this

theorem readI16_int16le (v : ℤ) (rest : List ℕ)
    (h1 : -32768 ≤ v) (h2 : v ≤ 32767) :
    readI16LE (int16le v ++ rest) 0 = v := by
  simp only [readI16LE, readU16LE, byteAt, int16le, u16le]
  simp only [List.cons_append, List.getD_cons_zero, List.getD_cons_succ]
  omega

theorem readI16_at_append (pre rest : List ℕ) (off : ℕ) (h : pre.length = off) :
    readI16LE (pre ++ rest) off = readI16LE rest 0 := by
  simp only [readI16LE, readU16LE, byteAt]
  rw [List.getD_append_right _ _ _ _ (by omega),
      List.getD_append_right _ _ _ _ (by omega)]
  have e1 : off - pre.length = 0 := by omega
  have e2 : off + 1 - pre.length = 1 := by omega
  rw [e1, e2]

theorem quantizeSample_eq_spec (s : ℚ) :
    quantizeSample s =
      (if max (-1) (min 1 s) < 0 then ⌈max (-1) (min 1 s) * 32768⌉
       else ⌊max (-1) (min 1 s) * 32767⌋) := by
  unfold quantizeSample
  set c := max (-1) (min 1 s) with hc
  by_cases hneg : c < 0
  · have hs : c * 32768 < 0 := mul_neg_of_neg_of_pos hneg (by norm_num)
    simp [hneg, hs]
  · push_neg at hneg
    have hs : ¬ (c * 32767 < 0) := by push_neg; positivity
    simp [not_lt.mpr hneg, hs]

/-- C2: for every sample array, the encoder stores at byte offset `44 + 2*i`
the PCM16 value obtained by clamping sample `i` to `[-1, 1]`, scaling negative
values by 32768 and non-negative values by 32767, truncated toward zero. -/
theorem encode_quantization (samples : List ℚ) (rate : ℕ) (i : ℕ)
    (h : i < samples.length) :
    readI16LE (encodeWav samples rate) (44 + 2 * i) =
      (if max (-1) (min 1 (samples.getD i 0)) < 0
       then ⌈max (-1) (min 1 (samples.getD i 0)) * 32768⌉
       else ⌊max (-1) (min 1 (samples.getD i 0)) * 32767⌋) := by
  have hb := quantizeSample_bounds (samples.getD i 0)
  have hdecomp : samples =
      samples.take i ++ samples.getD i 0 :: samples.drop (i + 1) := by
    conv_lhs => rw [← List.take_append_drop i samples]
    rw [List.drop_eq_getElem_cons h, List.getD_eq_getElem _ _ h]
  have hp : pcmData samples =
      pcmData (samples.take i) ++
        (int16le (quantizeSample (samples.getD i 0)) ++
          pcmData (samples.drop (i + 1))) := by
    conv_lhs => rw [hdecomp]
    rw [pcmData_append]
    simp [pcmData]
  have hsplit : encodeWav samples rate =
      (wavHeader samples.length rate ++ pcmData (samples.take i)) ++
        (int16le (quantizeSample (samples.getD i 0)) ++
          pcmData (samples.drop (i + 1))) := by
    rw [encodeWav, hp, List.append_assoc]
  rw [hsplit, readI16_at_append _ _ _ ?_, readI16_int16le _ _ hb.1 hb.2,
    quantizeSample_eq_spec]
  simp [wavHeader_length, pcmData_length, List.length_take]
  omega

/-- Witness for C2: the spec's clamp law, `encode([2.0, -2.0, 0.25], 16000)`
yields PCM16 values 32767, -32768, 8191 at byte offsets 44, 46, 48. -/
theorem encode_quantization_witness :
    readI16LE (encodeWav [2, -2, 1/4] 16000) 44 = 32767 ∧
    readI16LE (encodeWav [2, -2, 1/4] 16000) 46 = -32768 ∧
    readI16LE (encodeWav [2, -2, 1/4] 16000) 48 = 8191 := by
  have h0 := encode_quantization [2, -2, 1/4] 16000 0 (by norm_num)
  have h1 := encode_quantization [2, -2, 1/4] 16000 1 (by norm_num)
  have h2 := encode_quantization [2, -2, 1/4] 16000 2 (by norm_num)
  have ev0 : (if max (-1) (min 1 (([2, -2, 1/4] : List ℚ).getD 0 0)) < 0
      then ⌈max (-1) (min 1 (([2, -2, 1/4] : List ℚ).getD 0 0)) * 32768⌉
      else ⌊max (-1) (min 1 (([2, -2, 1/4] : List ℚ).getD 0 0)) * 32767⌋) =
      (32767 : ℤ) := by
    rw [show ([2, -2, 1/4] : List ℚ).getD 0 0 = 2 from rfl]
    rw [show max (-1) (min 1 (2 : ℚ)) = 1 by norm_num]
    rw [if_neg (by norm_num), Int.floor_eq_iff]
    constructor <;> norm_num
  have ev1 : (if max (-1) (min 1 (([2, -2, 1/4] : List ℚ).getD 1 0)) < 0
      then ⌈max (-1) (min 1 (([2, -2, 1/4] : List ℚ).getD 1 0)) * 32768⌉
      else ⌊max (-1) (min 1 (([2, -2, 1/4] : List ℚ).getD 1 0)) * 32767⌋) =
      (-32768 : ℤ) := by
    rw [show ([2, -2, 1/4] : List ℚ).getD 1 0 = -2 from rfl]
    rw [show max (-1) (min 1 (-2 : ℚ)) = -1 by norm_num]
    rw [if_pos (by norm_num), Int.ceil_eq_iff]
    constructor <;> norm_num
  have ev2 : (if max (-1) (min 1 (([2, -2, 1/4] : List ℚ).getD 2 0)) < 0
      then ⌈max (-1) (min 1 (([2, -2, 1/4] : List ℚ).getD 2 0)) * 32768⌉
      else ⌊max (-1) (min 1 (([2, -2, 1/4] : List ℚ).getD 2 0)) * 32767⌋) =
      (8191 : ℤ) := by
    rw [show ([2, -2, 1/4] : List ℚ).getD 2 0 = 1/4 from rfl]
    rw [show max (-1) (min 1 ((1 : ℚ)/4)) = 1/4 by norm_num]
    rw [if_neg (by norm_num), Int.floor_eq_iff]
    constructor <;> norm_num
  exact ⟨h0.trans ev0, h1.trans ev1, h2.trans ev2⟩

/-- Value of `chunkStart` in iteration `index` of the `splitAudio` while-loop:
`index * segmentSamples`, minus `overlapSamples` when `index > 0`. -/
def chunkStartOf (S O : ℤ) (index : ℕ) : ℤ :=
  if 0 < index then (index : ℤ) * S - O else (index : ℤ) * S

/-- Value of `chunkLength` before the end-of-buffer clamp:
`segmentSamples + (index > 0 ? overlapSamples : 0)`. -/
def chunkLen0Of (S O : ℤ) (index : ℕ) : ℤ :=
  S + (if 0 < index then O else 0)

/-- Value of `chunkLength` after the clamp
`if (chunkStart + chunkLength > samples.length) chunkLength = samples.length - chunkStart`. -/
def chunkLenOf (S O total : ℤ) (index : ℕ) : ℤ :=
  if total < chunkStartOf S O index + chunkLen0Of S O index
  then total - chunkStartOf S O index
  else chunkLen0Of S O index

/-- The while-loop of `AudioProcessor.splitAudio`, fuel-indexed: while
`index * segmentSamples < samples.length`, compute the chunk, stop before
emitting when `chunkLength <= 0`, emit, stop after emitting when
`chunkStart + chunkLength >= samples.length`, else continue with `index + 1`.
Each emitted pair is `(chunkStart, chunkLength)`. -/
def splitLoop (S O total : ℤ) : ℕ → ℕ → List (ℤ × ℤ)
  | 0, _ => []
  | fuel + 1, index =>
    if (index : ℤ) * S < total then
      if chunkLenOf S O total index ≤ 0 then []
      else if total ≤ chunkStartOf S O index + chunkLenOf S O total index then
        [(chunkStartOf S O index, chunkLenOf S O total index)]
      else (chunkStartOf S O index, chunkLenOf S O total index) ::
        splitLoop S O total fuel (index + 1)
    else []

/-- Segmentation for given integer segment and overlap sample counts; the fuel
`total.toNat + 1` is enough for the loop to run to its own termination. -/
def segmentsOf (S O total : ℤ) : List (ℤ × ℤ) :=
  splitLoop S O total (total.toNat + 1) 0

/-- Segment computation of `AudioProcessor.splitAudio`:
`segmentSamples = Math.floor(segmentDuration * sampleRate)` and
`overlapSamples = Math.floor(overlap * sampleRate)`. -/
def splitSegments (segmentDuration overlap sampleRate : ℚ) (total : ℤ) :
    List (ℤ × ℤ) :=
  segmentsOf ⌊segmentDuration * sampleRate⌋ ⌊overlap * sampleRate⌋ total

/-- Behaviour of `Float32Array.subarray(b, e)`: negative indices are taken
relative to the end, then both are clamped to `[0, length]`. -/
def subarray (samples : List ℚ) (b e : ℤ) : List ℚ :=
  let len : ℤ := samples.length
  let rb := if b < 0 then max (len + b) 0 else min b len
  let re := if e < 0 then max (len + e) 0 else min e len
  (samples.drop rb.toNat).take (re - rb).toNat

/-- The `splitAudio` pipeline after normalization: compute the segments over
the normalized buffer and encode each one as a WAV byte buffer
(`createWavBlob` of `samples.subarray(chunkStart, chunkStart + chunkLength)`). -/
def splitAudioBlobs (samples : List ℚ) (sampleRate : ℕ)
    (segmentDuration overlap : ℚ) : List (List ℕ) :=
  (splitSegments segmentDuration overlap sampleRate samples.length).map
    (fun p => encodeWav (subarray samples p.1 (p.1 + p.2)) sampleRate)

theorem subarray_length_of_nonneg (samples : List ℚ) (b e : ℤ)
    (hb : 0 ≤ b) (hbe : b ≤ e) (he : e ≤ samples.length) :
    (subarray samples b e).length = (e - b).toNat := by
  simp only [subarray]
  rw [if_neg (by omega), if_neg (by omega)]
  simp only [List.length_take, List.length_drop]
  omega

theorem floor_two_mul_ten : ⌊(2 : ℚ) * 10⌋ = (20 : ℤ) := by
  rw [Int.floor_eq_iff]
  constructor <;> norm_num

theorem floor_half_mul_ten : ⌊(1/2 : ℚ) * 10⌋ = (5 : ℤ) := by
  rw [Int.floor_eq_iff]
  constructor <;> norm_num

/-- C1: for a 50-frame buffer at rate 10 with segment duration 2 s and overlap
0.5 s, splitAudio yields exactly the three segments
`(start 0, 20 samples)`, `(start 15, 25 samples)`, `(start 35, 15 samples)`,
whose encoded byte lengths are 84, 94 and 74. -/
theorem segmentation_concrete (samples : List ℚ) (h : samples.length = 50) :
    splitSegments 2 (1/2) 10 50 = [(0, 20), (15, 25), (35, 15)] ∧
    (splitAudioBlobs samples 10 2 (1/2)).map List.length = [84, 94, 74] := by
  have hseg : splitSegments 2 (1/2) 10 50 = [(0, 20), (15, 25), (35, 15)] := by
    rw [splitSegments, floor_two_mul_ten, floor_half_mul_ten]
    decide
  refine ⟨hseg, ?_⟩
  rw [splitAudioBlobs, h]
  push_cast
  rw [hseg]
  simp only [List.map_cons, List.map_nil, encodeWav_length]
  rw [subarray_length_of_nonneg samples 0 (0 + 20) (by norm_num) (by norm_num)
      (by rw [h]; norm_num),
    subarray_length_of_nonneg samples 15 (15 + 25) (by norm_num) (by norm_num)
      (by rw [h]; norm_num),
    subarray_length_of_nonneg samples 35 (35 + 15) (by norm_num) (by norm_num)
      (by rw [h]; norm_num)]
  norm_num
  omega

/-- Witness for C1 at a concrete 50-frame buffer. -/
theorem segmentation_concrete_witness :
    splitSegments 2 (1/2) 10 50 = [(0, 20), (15, 25), (35, 15)] ∧
    (splitAudioBlobs (List.replicate 50 0) 10 2 (1/2)).map List.length =
      [84, 94, 74] :=
  segmentation_concrete (List.replicate 50 0) (by simp)

theorem splitLoop_inv (S O total : ℤ) (hS : 1 ≤ S) (hO : 0 ≤ O) (hOS : O ≤ S) :
    ∀ fuel index, total.toNat + 1 ≤ fuel + index →
      (∀ p ∈ splitLoop S O total fuel index,
          0 ≤ p.1 ∧ 1 ≤ p.2 ∧ p.1 + p.2 ≤ total) ∧
      (∀ j : ℤ, (index : ℤ) * S ≤ j → j < total →
        ∃ p ∈ splitLoop S O total fuel index, p.1 ≤ j ∧ j < p.1 + p.2) ∧
      List.Chain' (fun p q : ℤ × ℤ => q.1 + O = p.1 + p.2)
        (splitLoop S O total fuel index) ∧
      (∀ p ∈ (splitLoop S O total fuel index).head?,
          p.1 = chunkStartOf S O index) := by
  intro fuel
  induction fuel with
  | zero =>
    intro index hfi
    have hA : (index : ℤ) ≤ (index : ℤ) * S :=
      le_mul_of_one_le_right (Int.natCast_nonneg index) hS
    have hidx : total < (index : ℤ) := by omega
    refine ⟨by simp [splitLoop], ?_, by simp [splitLoop], by simp [splitLoop]⟩
    intro j hj1 hj2
    exfalso
    linarith
  | succ fuel ih =>
    intro index hfi
    have hunfold : splitLoop S O total (fuel + 1) index =
        if (index : ℤ) * S < total then
          if chunkLenOf S O total index ≤ 0 then []
          else if total ≤ chunkStartOf S O index + chunkLenOf S O total index
          then [(chunkStartOf S O index, chunkLenOf S O total index)]
          else (chunkStartOf S O index, chunkLenOf S O total index) ::
            splitLoop S O total fuel (index + 1)
        else [] := rfl
    by_cases hc : (index : ℤ) * S < total
    swap
    · push_neg at hc
      rw [hunfold, if_neg (by linarith)]
      refine ⟨by simp, ?_, by simp, by simp⟩
      intro j hj1 hj2
      exfalso
      linarith
    · have hA : (index : ℤ) ≤ (index : ℤ) * S :=
        le_mul_of_one_le_right (Int.natCast_nonneg index) hS
      have hC : 0 ≤ (index : ℤ) * S :=
        mul_nonneg (Int.natCast_nonneg index) (by linarith)
      have hD : 0 < index → S ≤ (index : ℤ) * S := fun hpos =>
        le_mul_of_one_le_left (by linarith) (by exact_mod_cast hpos)
      have hst_le : chunkStartOf S O index ≤ (index : ℤ) * S := by
        by_cases hpos : 0 < index <;> simp [chunkStartOf, hpos]
        linarith
      have hst_nonneg : 0 ≤ chunkStartOf S O index := by
        by_cases hpos : 0 < index <;> simp [chunkStartOf, hpos]
        · linarith [hD hpos]
        · exact hC
      have hln0_pos : 1 ≤ chunkLen0Of S O index := by
        by_cases hpos : 0 < index <;> simp [chunkLen0Of, hpos] <;> linarith
      have hsum : chunkStartOf S O index + chunkLen0Of S O index =
          ((index : ℤ) + 1) * S := by
        by_cases hpos : 0 < index <;> simp [chunkStartOf, chunkLen0Of, hpos] <;>
          ring
      have hln_pos : 1 ≤ chunkLenOf S O total index := by
        unfold chunkLenOf
        split
        · linarith
        · exact hln0_pos
      have hln_le : chunkStartOf S O index + chunkLenOf S O total index ≤
          total := by
        unfold chunkLenOf
        split
        · linarith
        · rename_i hnc
          push_neg at hnc
          linarith
      have hln_cases : chunkStartOf S O index + chunkLenOf S O total index =
          total ∨
          chunkStartOf S O index + chunkLenOf S O total index =
            ((index : ℤ) + 1) * S := by
        unfold chunkLenOf
        split
        · left
          ring
        · right
          exact hsum
      rw [hunfold, if_pos hc, if_neg (by linarith)]
      by_cases hend : total ≤ chunkStartOf S O index + chunkLenOf S O total index
      · rw [if_pos hend]
        have hstln : chunkStartOf S O index + chunkLenOf S O total index =
            total := le_antisymm hln_le hend
        refine ⟨?_, ?_, by simp, ?_⟩
        · intro p hp
          simp only [List.mem_singleton] at hp
          rw [hp]
          exact ⟨hst_nonneg, hln_pos, hln_le⟩
        · intro j hj1 hj2
          refine ⟨(chunkStartOf S O index, chunkLenOf S O total index),
            by simp, by linarith, by linarith⟩
        · intro p hp
          simp only [List.head?_cons, Option.mem_def, Option.some.injEq] at hp
          rw [← hp]
      · rw [if_neg hend]
        push_neg at hend
        have hnext : chunkStartOf S O index + chunkLenOf S O total index =
            ((index : ℤ) + 1) * S := by
          rcases hln_cases with h | h
          · exfalso
            linarith
          · exact h
        obtain ⟨r1, r2, r3, r4⟩ := ih (index + 1) (by omega)
        refine ⟨?_, ?_, ?_, ?_⟩
        · intro p hp
          rcases List.mem_cons.mp hp with hph | hpt
          · rw [hph]
            exact ⟨hst_nonneg, hln_pos, hln_le⟩
          · exact r1 p hpt
        · intro j hj1 hj2
          by_cases hj3 : j < ((index : ℤ) + 1) * S
          · refine ⟨(chunkStartOf S O index, chunkLenOf S O total index),
              List.mem_cons_self _ _, by linarith, by linarith⟩
          · push_neg at hj3
            obtain ⟨p, hp, hpj⟩ := r2 j (by push_cast; linarith) hj2
            exact ⟨p, List.mem_cons_of_mem _ hp, hpj⟩
        · rw [List.chain'_cons']
          refine ⟨?_, r3⟩
          intro q hq
          have hq1 := r4 q hq
          rw [hq1, hnext]
          simp only [chunkStartOf, if_pos (Nat.succ_pos index)]
          push_cast
          ring
        · intro p hp
          simp only [List.head?_cons, Option.mem_def, Option.some.injEq] at hp
          rw [← hp]

/-- C10: whenever the computed segment length `S = floor(d * rate)` is at
least 1 and the computed overlap `O = floor(o * rate)` satisfies
`0 ≤ O ≤ S`, every emitted segment is non-empty and lies inside the buffer,
the segments jointly cover every sample index of `[0, total)`, each segment
after the first starts exactly `O` samples before the end of its predecessor,
and an empty buffer yields no segments. -/
theorem split_invariants (d o r : ℚ) (total : ℤ)
    (hS : 1 ≤ ⌊d * r⌋) (hO : 0 ≤ ⌊o * r⌋) (hOS : ⌊o * r⌋ ≤ ⌊d * r⌋) :
    (∀ p ∈ splitSegments d o r total, 0 ≤ p.1 ∧ 1 ≤ p.2 ∧ p.1 + p.2 ≤ total) ∧
    (∀ j : ℤ, 0 ≤ j → j < total →
      ∃ p ∈ splitSegments d o r total, p.1 ≤ j ∧ j < p.1 + p.2) ∧
    List.Chain' (fun p q : ℤ × ℤ => q.1 + ⌊o * r⌋ = p.1 + p.2)
      (splitSegments d o r total) ∧
    (total = 0 → splitSegments d o r total = []) := by
  obtain ⟨h1, h2, h3, h4⟩ :=
    splitLoop_inv ⌊d * r⌋ ⌊o * r⌋ total hS hO hOS (total.toNat + 1) 0
      (by omega)
  refine ⟨h1, ?_, h3, ?_⟩
  · intro j hj1 hj2
    exact h2 j (by simpa using hj1) hj2
  · intro h0
    subst h0
    show splitLoop ⌊d * r⌋ ⌊o * r⌋ 0 ((0 : ℤ).toNat + 1) 0 = []
    have : splitLoop ⌊d * r⌋ ⌊o * r⌋ 0 ((0 : ℤ).toNat + 1) 0 =
        if ((0 : ℕ) : ℤ) * ⌊d * r⌋ < 0 then
          if chunkLenOf ⌊d * r⌋ ⌊o * r⌋ 0 0 ≤ 0 then []
          else if (0 : ℤ) ≤ chunkStartOf ⌊d * r⌋ ⌊o * r⌋ 0 +
              chunkLenOf ⌊d * r⌋ ⌊o * r⌋ 0 0
          then [(chunkStartOf ⌊d * r⌋ ⌊o * r⌋ 0,
            chunkLenOf ⌊d * r⌋ ⌊o * r⌋ 0 0)]
          else (chunkStartOf ⌊d * r⌋ ⌊o * r⌋ 0,
            chunkLenOf ⌊d * r⌋ ⌊o * r⌋ 0 0) ::
              splitLoop ⌊d * r⌋ ⌊o * r⌋ 0 0 1
        else [] := rfl
    rw [this, if_neg (by simp)]

/-- Witness for C10 at segment duration 2 s, overlap 0.5 s, rate 10,
50 frames (the hypotheses hold there: S = 20, O = 5). -/
theorem split_invariants_witness :
    ((1 : ℤ) ≤ ⌊(2 : ℚ) * 10⌋ ∧ (0 : ℤ) ≤ ⌊(1/2 : ℚ) * 10⌋ ∧
      ⌊(1/2 : ℚ) * 10⌋ ≤ ⌊(2 : ℚ) * 10⌋) ∧
    ((∀ p ∈ splitSegments 2 (1/2) 10 50,
        0 ≤ p.1 ∧ 1 ≤ p.2 ∧ p.1 + p.2 ≤ 50) ∧
      (∀ j : ℤ, 0 ≤ j → j < 50 →
        ∃ p ∈ splitSegments 2 (1/2) 10 50, p.1 ≤ j ∧ j < p.1 + p.2) ∧
      List.Chain' (fun p q : ℤ × ℤ => q.1 + ⌊(1/2 : ℚ) * 10⌋ = p.1 + p.2)
        (splitSegments 2 (1/2) 10 50) ∧
      ((50 : ℤ) = 0 → splitSegments 2 (1/2) 10 50 = [])) :=
  ⟨⟨by rw [floor_two_mul_ten]; norm_num,
    by rw [floor_half_mul_ten]; norm_num,
    by rw [floor_half_mul_ten, floor_two_mul_ten]; norm_num⟩,
   split_invariants 2 (1/2) 10 50
    (by rw [floor_two_mul_ten]; norm_num)
    (by rw [floor_half_mul_ten]; norm_num)
    (by rw [floor_half_mul_ten, floor_two_mul_ten]; norm_num)⟩

/-- Modelled from the spec words of §4.5, for comparison only: segmentation
with `S = round(segmentDurationSeconds * sampleRate)` and
`O = round(overlapSeconds * sampleRate)` (rounding to nearest), instead of
the source's `Math.floor`. -/
def specRoundSegments (segmentDuration overlap sampleRate : ℚ) (total : ℤ) :
    List (ℤ × ℤ) :=
  segmentsOf (round (segmentDuration * sampleRate))
    (round (overlap * sampleRate)) total

theorem floor_quarter_mul_ten : ⌊(1/4 : ℚ) * 10⌋ = (2 : ℤ) := by
  rw [Int.floor_eq_iff]
  constructor <;> norm_num

theorem round_quarter_mul_ten : round ((1/4 : ℚ) * 10) = (3 : ℤ) := by
  rw [round_eq, Int.floor_eq_iff]
  constructor <;> norm_num

theorem floor_zero_mul_ten : ⌊(0 : ℚ) * 10⌋ = (0 : ℤ) := by
  norm_num

theorem round_zero_mul_ten : round ((0 : ℚ) * 10) = (0 : ℤ) := by
  norm_num

/-- Counterexample for C5: at segment duration 0.25 s, overlap 0 s, rate 10
and a 5-frame buffer, the source's floor-based segmentation differs from the
spec's round-based one (the products are 2.5 and 0, so floor gives S = 2 but
round gives S = 3). -/
theorem split_floor_not_round :
    splitSegments (1/4) 0 10 5 ≠ specRoundSegments (1/4) 0 10 5 := by
  have h1 : splitSegments (1/4) 0 10 5 = [(0, 2), (2, 2), (4, 1)] := by
    rw [splitSegments, floor_quarter_mul_ten, floor_zero_mul_ten]
    decide
  have h2 : specRoundSegments (1/4) 0 10 5 = [(0, 3), (3, 2)] := by
    rw [specRoundSegments, round_quarter_mul_ten, round_zero_mul_ten]
    decide
  rw [h1, h2]
  decide

/-- C5 amended: the segmenter computes the segment and overlap sample counts
by flooring (truncating downward) the products `segmentDuration * sampleRate`
and `overlap * sampleRate`; here floor is characterized by its defining
bounds. -/
theorem split_floor_params (d o r : ℚ) (total : ℤ) (S O : ℤ)
    (hS1 : (S : ℚ) ≤ d * r) (hS2 : d * r < S + 1)
    (hO1 : (O : ℚ) ≤ o * r) (hO2 : o * r < O + 1) :
    splitSegments d o r total = segmentsOf S O total := by
  rw [splitSegments, Int.floor_eq_iff.mpr ⟨hS1, hS2⟩,
    Int.floor_eq_iff.mpr ⟨hO1, hO2⟩]

/-- Witness for the amended C5 at duration 0.25 s, overlap 0 s, rate 10,
5 frames: the floors are S = 2 and O = 0. -/
theorem split_floor_params_witness :
    splitSegments (1/4) 0 10 5 = segmentsOf 2 0 5 :=
  split_floor_params (1/4) 0 10 5 2 0 (by norm_num) (by norm_num)
    (by norm_num) (by norm_num)

/-- The separator passed to `results.join(" ")`. -/
def spaceSep : String := " "

/-- The `for` loop of the segmented path in `handleFileUpload`: chunks are
transcribed sequentially in chronological order, each awaited result pushed
onto `results` before the next call is issued. -/
def transcribeChunks (transcribe : List ℕ → String) :
    List (List ℕ) → List String
  | [] => []
  | c :: rest => transcribe c :: transcribeChunks transcribe rest

/-- JavaScript `Array.prototype.join(" ")` on the results list. -/
def joinSpace : List String → String
  | [] => ""
  | [x] => x
  | x :: y :: rest => x ++ spaceSep ++ joinSpace (y :: rest)

/-- Containers submitted to the transcription client by `handleFileUpload`:
the split chunks when the probed duration exceeds 900 s, otherwise the single
normalized container. -/
def submittedContainers (duration : ℚ) (samples : List ℚ) : List (List ℕ) :=
  if 900 < duration then splitAudioBlobs samples 16000 900 3
  else [encodeWav samples 16000]

/-- End-to-end transcript of one recording in `handleFileUpload`: transcribe
the submitted containers in order and join the results with a single space. -/
def processRecording (transcribe : List ℕ → String) (duration : ℚ)
    (samples : List ℚ) : String :=
  joinSpace (transcribeChunks transcribe (submittedContainers duration samples))

/-- C6: the segmented path is taken exactly when the probed duration is
strictly greater than 900 seconds; at 900 seconds or below (including exactly
900) a single normalized container is submitted. -/
theorem path_decision (duration : ℚ) (samples : List ℚ) :
    (duration ≤ 900 →
      submittedContainers duration samples = [encodeWav samples 16000]) ∧
    (900 < duration →
      submittedContainers duration samples =
        splitAudioBlobs samples 16000 900 3) := by
  constructor
  · intro h
    rw [submittedContainers, if_neg (by linarith)]
  · intro h
    rw [submittedContainers, if_pos h]

/-- Witness for C6 at the boundary duration of exactly 900 seconds. -/
theorem path_decision_witness :
    submittedContainers 900 [] = [encodeWav [] 16000] :=
  (path_decision 900 []).1 (by norm_num)

theorem transcribeChunks_map (f : List ℕ → String) (chunks : List (List ℕ)) :
    transcribeChunks f chunks = chunks.map f := by
  induction chunks with
  | nil => rfl
  | cons c rest ih => simp [transcribeChunks, ih]

theorem intercalate_go_eq (xs : List String) :
    ∀ acc : String, String.intercalate.go acc spaceSep xs =
      joinSpace (acc :: xs) := by
  induction xs with
  | nil =>
    intro acc
    rfl
  | cons y ys ih =>
    intro acc
    rw [String.intercalate.go, ih (acc ++ spaceSep ++ y)]
    cases ys with
    | nil => rfl
    | cons z zs => simp [joinSpace, String.append_assoc]

theorem joinSpace_eq_intercalate (xs : List String) :
    joinSpace xs = String.intercalate spaceSep xs := by
  cases xs with
  | nil => rfl
  | cons x rest => rw [String.intercalate, intercalate_go_eq rest x]

/-- C7: on the segmented path the per-chunk transcripts are produced in
chronological segment order, and the final transcript is exactly those
transcripts joined with a single space, with no deduplication of overlap. -/
theorem merge_transcripts (f : List ℕ → String) (duration : ℚ)
    (samples : List ℚ) (h : 900 < duration) :
    transcribeChunks f (splitAudioBlobs samples 16000 900 3) =
      (splitAudioBlobs samples 16000 900 3).map f ∧
    processRecording f duration samples =
      String.intercalate spaceSep ((splitAudioBlobs samples 16000 900 3).map f)
    := by
  refine ⟨transcribeChunks_map f _, ?_⟩
  rw [processRecording, submittedContainers, if_pos h, transcribeChunks_map,
    joinSpace_eq_intercalate]

/-- Witness for C7 at a 1000-second 50-frame recording with a concrete
transcription function. -/
theorem merge_transcripts_witness :
    transcribeChunks (fun c => toString c.length)
        (splitAudioBlobs (List.replicate 50 0) 16000 900 3) =
      (splitAudioBlobs (List.replicate 50 0) 16000 900 3).map
        (fun c => toString c.length) ∧
    processRecording (fun c => toString c.length) 1000 (List.replicate 50 0) =
      String.intercalate spaceSep
        ((splitAudioBlobs (List.replicate 50 0) 16000 900 3).map
          (fun c => toString c.length)) :=
  merge_transcripts (fun c => toString c.length) 1000 (List.replicate 50 0)
    (by norm_num)

/-- JavaScript number as reported by `audio.duration`: a finite rational,
NaN, or an infinity. -/
inductive JsNum
  | finite (q : ℚ)
  | nan
  | posInf
  | negInf
deriving DecidableEq

/-- The check `Number.isFinite(duration) && duration > 0`. -/
def durationValid : JsNum → Bool
  | .finite q => decide (0 < q)
  | _ => false

/-- Outcome of loading the media element: either `onloadedmetadata` fires
with a duration value, or `onerror` fires. -/
inductive MetadataEvent
  | loaded (duration : JsNum)
  | errored

/-- A successfully decoded `AudioBuffer`: frame count and sample rate. -/
structure DecodedBuffer where
  frames : ℕ
  sampleRate : ℚ
deriving DecidableEq

/-- The `AudioBuffer.duration` accessor: `length / sampleRate` seconds. -/
def DecodedBuffer.duration (b : DecodedBuffer) : ℚ :=
  (b.frames : ℚ) / b.sampleRate

/-- Message used when the metadata load itself fails. -/
def msgMetadata : String := "Unable to read audio metadata."

/-- Message used when the decode fallback also fails. -/
def msgDuration : String := "Unable to read audio duration."

/-- The decode fallback inside `onloadedmetadata`: resolve with the decoded
buffer's duration, or reject with the duration message when decoding fails.
The boolean records that the fallback ran. -/
def decodeFallback (decodeResult : Option DecodedBuffer) :
    Except String ℚ × Bool :=
  match decodeResult with
  | some buf => (Except.ok buf.duration, true)
  | none => (Except.error msgDuration, true)

/-- The `getAudioMetadata`/`getAudioDuration` promise: reject on the error
event; on loaded metadata resolve the duration if it is finite and positive,
otherwise run the decode fallback. The boolean records whether the decode
fallback was attempted. -/
def getAudioDuration (ev : MetadataEvent)
    (decodeResult : Option DecodedBuffer) : Except String ℚ × Bool :=
  match ev with
  | .errored => (Except.error msgMetadata, false)
  | .loaded d =>
    match d with
    | .finite q =>
      if 0 < q then (Except.ok q, false)
      else decodeFallback decodeResult
    | _ => decodeFallback decodeResult

/-- C8: the probe returns the metadata duration when it is finite and
positive; when it is missing, zero, non-positive, infinite or NaN, the decode
fallback returns the decoded buffer's duration `frames / sampleRate` — a
positive value for any non-empty buffer with positive rate — or fails with
the duration-unavailable error when decoding fails too. -/
theorem duration_probe_spec (q : ℚ) (d : JsNum) (buf : DecodedBuffer)
    (decodeResult : Option DecodedBuffer) (hq : 0 < q)
    (hd : durationValid d = false) (hframes : 0 < buf.frames)
    (hrate : 0 < buf.sampleRate) :
    getAudioDuration (.loaded (.finite q)) decodeResult =
      (Except.ok q, false) ∧
    (getAudioDuration (.loaded d) (some buf)).1 = Except.ok buf.duration ∧
    0 < buf.duration ∧
    getAudioDuration (.loaded d) none = (Except.error msgDuration, true) := by
  have hfall : ∀ res, getAudioDuration (.loaded d) res = decodeFallback res := by
    intro res
    cases d with
    | finite q' =>
      have : ¬ (0 < q') := by
        simpa [durationValid] using hd
      simp [getAudioDuration, this]
    | nan => rfl
    | posInf => rfl
    | negInf => rfl
  refine ⟨by simp [getAudioDuration, hq], ?_, ?_, ?_⟩
  · rw [hfall (some buf)]
    rfl
  · exact div_pos (by exact_mod_cast hframes) hrate
  · rw [hfall none]
    rfl

/-- Witness for C8: duration 12.5 on the primary path; invalid metadata
duration 0 with an 8-frame rate-10 decoded buffer on the fallback path. -/
theorem duration_probe_spec_witness :
    getAudioDuration (.loaded (.finite (25/2))) none =
      (Except.ok (25/2 : ℚ), false) ∧
    (getAudioDuration (.loaded (.finite 0))
        (some (DecodedBuffer.mk 8 10))).1 =
      Except.ok (DecodedBuffer.mk 8 10).duration ∧
    0 < (DecodedBuffer.mk 8 10).duration ∧
    getAudioDuration (.loaded (.finite 0)) none =
      (Except.error msgDuration, true) :=
  duration_probe_spec (25/2) (.finite 0) (DecodedBuffer.mk 8 10) none
    (by norm_num) (by decide) (by norm_num) (by norm_num)

/-- C9: when the metadata load errors, the probe rejects immediately with the
metadata error message and the decode fallback never runs, regardless of
whether a decode would succeed; the fallback runs exactly when metadata loads
with an invalid (non-finite or non-positive) duration. -/
theorem metadata_error_no_fallback (decodeResult : Option DecodedBuffer)
    (d : JsNum) :
    getAudioDuration .errored decodeResult =
      (Except.error msgMetadata, false) ∧
    ((getAudioDuration (.loaded d) decodeResult).2 = true ↔
      durationValid d = false) := by
  refine ⟨rfl, ?_⟩
  cases d with
  | finite q =>
    by_cases hq : 0 < q
    · simp [getAudioDuration, hq, durationValid]
    · cases decodeResult <;>
        simp [getAudioDuration, hq, durationValid, decodeFallback]
  | nan => cases decodeResult <;> simp [getAudioDuration, durationValid, decodeFallback]
  | posInf => cases decodeResult <;> simp [getAudioDuration, durationValid, decodeFallback]
  | negInf => cases decodeResult <;> simp [getAudioDuration, durationValid, decodeFallback]

end TranscribeApp
